import Mathlib

/-!
Verification of the photondb Bw-tree engine (`src/photondb/src/tree/mod.rs`,
`src/photondb/src/perf.rs`, `src/src/engine/src/tree/page/data.rs`) against its
natural-language specification.  Machine integers are modelled as `Nat` (no
arithmetic in the modelled code overflows in a way the claims depend on),
byte strings as `List Nat`, and fallible operations as `Except`.
-/

namespace Photondb

/-- Raw key / value bytes (`&[u8]` in the source). -/
abbrev Raw := List Nat

/-- `Key { raw, lsn }` from `page/data.rs`. -/
structure Key where
  raw : Raw
  lsn : Nat
deriving Repr, DecidableEq

/-- `Value { Put(bytes) | Delete }` from `page/data.rs`. -/
inductive Value where
  | Put (bytes : Raw)
  | Delete
deriving Repr, DecidableEq

/-- `PageTier` of a page header: `Leaf` or `Inner`. -/
inductive PageTier where
  | Leaf
  | Inner
deriving Repr, DecidableEq

/-- `PageKind` of a page header: `Data` or `Split`. -/
inductive PageKind where
  | Data
  | Split
deriving Repr, DecidableEq

/-- Lexicographic comparison of raw byte strings (`[u8]::cmp` in Rust). -/
def cmpRaw : Raw → Raw → Ordering
  | [], [] => .eq
  | [], _ :: _ => .lt
  | _ :: _, [] => .gt
  | a :: as_, b :: bs =>
    match compare a b with
    | .eq => cmpRaw as_ bs
    | o => o

/-- `Ordering::reverse` from Rust's standard library. -/
def reverseOrd : Ordering → Ordering
  | .lt => .gt
  | .eq => .eq
  | .gt => .lt

/-- `Key::cmp` from `page/data.rs`: raw ascending, then lsn descending. -/
def Key.cmp (a b : Key) : Ordering :=
  match cmpRaw a.raw b.raw with
  | .eq => reverseOrd (compare a.lsn b.lsn)
  | o => o

/-- `Key` strict order induced by `Key.cmp` (Rust's `lt` via `Ord`). -/
def Key.lt (a b : Key) : Prop := Key.cmp a b = .lt

instance (a b : Key) : Decidable (Key.lt a b) :=
  inferInstanceAs (Decidable (Key.cmp a b = .lt))

/-- `Key::eq` from `page/data.rs`: both `raw` and `lsn` must agree. -/
def Key.beq (a b : Key) : Bool := a.raw == b.raw && a.lsn == b.lsn

section CmpRawLemmas

theorem cmpRaw_self (a : Raw) : cmpRaw a a = .eq := by
  induction a with
  | nil => rfl
  | cons x xs ih =>
    have hx : compare x x = .eq := Nat.compare_eq_eq.mpr rfl
    simp [cmpRaw, hx, ih]

theorem cmpRaw_eq_iff (a b : Raw) : cmpRaw a b = .eq ↔ a = b := by
  induction a generalizing b with
  | nil => cases b <;> simp [cmpRaw]
  | cons x xs ih =>
    cases b with
    | nil => simp [cmpRaw]
    | cons y ys =>
      simp only [cmpRaw]
      cases h : compare x y with
      | lt =>
        have hxy : x < y := Nat.compare_eq_lt.mp h
        simp only [List.cons.injEq]
        constructor
        · intro hh; exact absurd hh (by decide)
        · rintro ⟨rfl, -⟩; exact absurd hxy (lt_irrefl x)
      | eq =>
        have hxy : x = y := Nat.compare_eq_eq.mp h
        subst hxy
        simp [ih]
      | gt =>
        have hxy : y < x := Nat.compare_eq_gt.mp h
        simp only [List.cons.injEq]
        constructor
        · intro hh; exact absurd hh (by decide)
        · rintro ⟨rfl, -⟩; exact absurd hxy (lt_irrefl x)

theorem cmpRaw_lt_iff_lex (a b : Raw) :
    cmpRaw a b = .lt ↔ List.Lex (· < ·) a b := by
  induction a generalizing b with
  | nil =>
    cases b with
    | nil =>
      simp only [cmpRaw]
      constructor
      · intro hh; exact absurd hh (by decide)
      · intro hh; cases hh
    | cons y ys =>
      simp only [cmpRaw]
      exact ⟨fun _ => List.Lex.nil, fun _ => by trivial⟩
  | cons x xs ih =>
    cases b with
    | nil =>
      simp only [cmpRaw]
      constructor
      · intro hh; exact absurd hh (by decide)
      · intro hh; cases hh
    | cons y ys =>
      simp only [cmpRaw]
      cases h : compare x y with
      | lt =>
        have hxy : x < y := Nat.compare_eq_lt.mp h
        exact ⟨fun _ => List.Lex.rel hxy, fun _ => rfl⟩
      | eq =>
        have hxy : x = y := Nat.compare_eq_eq.mp h
        subst hxy
        rw [ih]
        constructor
        · intro hlex; exact List.Lex.cons hlex
        · intro hlex
          cases hlex with
          | cons hl => exact hl
          | rel hl => exact absurd hl (lt_irrefl x)
      | gt =>
        have hxy : y < x := Nat.compare_eq_gt.mp h
        constructor
        · intro hh; exact Ordering.noConfusion hh
        · intro hlex
          cases hlex with
          | cons hl => exact absurd hxy (lt_irrefl x)
          | rel hl => exact absurd hxy (Nat.lt_asymm hl)

end CmpRawLemmas

section KeyOrderLemmas

theorem Key.lt_same_raw_iff (k : Raw) (a b : Nat) :
    Key.lt ⟨k, a⟩ ⟨k, b⟩ ↔ b < a := by
  unfold Key.lt Key.cmp
  simp only [cmpRaw_self]
  cases h : compare a b with
  | lt =>
    have hab : a < b := Nat.compare_eq_lt.mp h
    simp only [reverseOrd]
    constructor
    · intro hh; exact absurd hh (by decide)
    · intro hh; exact absurd (Nat.lt_trans hab hh) (lt_irrefl a)
  | eq =>
    have hab : a = b := Nat.compare_eq_eq.mp h
    subst hab
    simp only [reverseOrd]
    constructor
    · intro hh; exact absurd hh (by decide)
    · intro hh; exact absurd hh (lt_irrefl a)
  | gt =>
    have hab : b < a := Nat.compare_eq_gt.mp h
    simp only [reverseOrd]
    exact ⟨fun _ => hab, fun _ => by trivial⟩

theorem Key.lt_ne_raw_iff (k1 k2 : Raw) (a b : Nat) (hne : k1 ≠ k2) :
    Key.lt ⟨k1, a⟩ ⟨k2, b⟩ ↔ List.Lex (· < ·) k1 k2 := by
  unfold Key.lt Key.cmp
  cases h : cmpRaw k1 k2 with
  | lt =>
    have := cmpRaw_lt_iff_lex k1 k2 |>.mp h
    simpa using this
  | eq => exact absurd (cmpRaw_eq_iff k1 k2 |>.mp h) hne
  | gt =>
    simp only []
    constructor
    · intro hh; exact absurd hh (by decide)
    · intro hlex
      exact absurd ((cmpRaw_lt_iff_lex k1 k2).mpr hlex) (by simp [h])

theorem Key.beq_iff (a b : Key) : Key.beq a b = true ↔ a.raw = b.raw ∧ a.lsn = b.lsn := by
  unfold Key.beq
  simp

end KeyOrderLemmas

/-!  `PerfCtx` from `src/photondb/src/perf.rs`.  `Duration` fields are
modelled as `Nat` (nanoseconds); `Duration::ZERO` is `0`. -/

/-- The per-task performance context (`PerfCtx` in `perf.rs`). -/
structure PerfCtx where
  total : Nat
  find_leaf : Nat
  find_value : Nat
  write_build_page : Nat
  replace_page : Nat
  collect_info : Nat
  get_page_info : Nat
  get_page : Nat
  consolidate_page : Nat
  split_page : Nat
  get_page_from_cache_count : Nat
  get_page_from_cache_miss_count : Nat
  get_page_info_count : Nat
  consolidate_page_size : Nat
  consolidate_length : Nat
deriving Repr, DecidableEq

/-- `PerfCtx::reset` from `perf.rs` lines 40-56: every field is assigned zero. -/
def PerfCtx.reset (_c : PerfCtx) : PerfCtx :=
  { total := 0
    find_leaf := 0
    find_value := 0
    write_build_page := 0
    replace_page := 0
    collect_info := 0
    get_page := 0
    get_page_info := 0
    consolidate_page := 0
    split_page := 0
    get_page_from_cache_count := 0
    get_page_from_cache_miss_count := 0
    get_page_info_count := 0
    consolidate_page_size := 0
    consolidate_length := 0 }

/-- The all-zero context (`PerfCtx::default()`). -/
def PerfCtx.zero : PerfCtx :=
  ⟨0, 0, 0, 0, 0, 0, 0, 0, 0, 0, 0, 0, 0, 0, 0⟩

/-- `Tree::set_safe_lsn` from `tree/mod.rs` lines 49-64, as the sequential
state transformer realised by the CAS loop: if the current value is already
at least `lsn` the call is a no-op, otherwise the value becomes `lsn`. -/
def set_safe_lsn (safe_lsn lsn : Nat) : Nat :=
  if safe_lsn ≥ lsn then safe_lsn else lsn

/-!  Tree data model (`src/photondb/src/tree/mod.rs`). -/

/-- Errors surfaced by the tree (`Error` in the page store crate); store
errors other than these two are not needed by the modelled paths. -/
inductive Error where
  | Again
  | InvalidArgument
deriving Repr, DecidableEq

/-- `Index { id, epoch }`: a child handle stored in an inner page. -/
structure Index where
  id : Nat
  epoch : Nat
deriving Repr, DecidableEq

/-- `NULL_INDEX`: the placeholder stored at the upper bound of a reconciled
split range. -/
def NULL_INDEX : Index := ⟨0, 0⟩

/-- `ROOT_ID`: the fixed reserved logical id of the root page (the first id
handed out by `Txn::insert_page`). -/
def ROOT_ID : Nat := 0

/-- Page header information (`PageInfo` as read by `read_page_info`). -/
structure PageInfo where
  epoch : Nat
  chainLen : Nat
  chainNext : Nat
  kind : PageKind
  tier : PageTier
  size : Nat
deriving Repr, DecidableEq

/-- `Range { start, end }` of the logical page currently viewed
(`end` is renamed `rend` because it is a Lean keyword). -/
structure RangeRec where
  start : Raw
  rend : Option Raw
deriving Repr, DecidableEq

/-- `PageView { id, addr, page, range }`. -/
structure PageView where
  id : Nat
  addr : Nat
  page : PageInfo
  range : Option RangeRec
deriving Repr, DecidableEq

/-- `Options { page_size, page_chain_length }` from `tree/options.rs`. -/
structure Options where
  page_size : Nat
  page_chain_length : Nat
deriving Repr, DecidableEq

/-- `should_split_page` from `tree/mod.rs` lines 752-759. -/
def should_split_page (opts : Options) (page : PageInfo) : Bool :=
  let max_size := if page.tier = .Inner then opts.page_size / 2 else opts.page_size
  page.size > max_size && page.chainNext == 0

/-- `should_consolidate_page` from `tree/mod.rs` lines 762-769. -/
def should_consolidate_page (opts : Options) (page : PageInfo) : Bool :=
  let max_chain_len :=
    if page.tier = .Inner then opts.page_chain_length / 2 else opts.page_chain_length
  page.chainLen > max (max_chain_len) 1

/-!  Reconciliation (`reconcile_page`, `reconcile_split_page`,
`tree/mod.rs` lines 545-620).  The CAS on the parent is abstracted by the
boolean `casOk`; the split delta read from the head page is passed in as
`split_key`/`split_index`. -/

/-- The inner delta built by `reconcile_split_page` (lines 588-598). -/
def reconcile_delta (view : PageView) (range : RangeRec) (split_key : Raw)
    (split_index : Index) : List (Raw × Index) :=
  let left := (range.start, Index.mk view.id view.page.epoch)
  match range.rend with
  | some range_end => [left, (split_key, split_index), (range_end, NULL_INDEX)]
  | none => [left, (split_key, split_index)]

/-- `reconcile_split_page` (lines 571-620): fails with `InvalidArgument`
when the view carries no range, otherwise prepends the delta to the parent;
a lost CAS yields `Again`. -/
def reconcile_split_page (casOk : Bool) (split_key : Raw) (split_index : Index)
    (view _parent : PageView) : Except Error Unit :=
  match view.range with
  | none => .error .InvalidArgument
  | some range =>
    let _delta := reconcile_delta view range split_key split_index
    if casOk then .ok () else .error .Again

/-- `reconcile_page` (lines 545-568): a `Data` head is a successful no-op;
a `Split` head without a parent is `InvalidArgument`, with a parent it
defers to `reconcile_split_page`. -/
def reconcile_page (casOk : Bool) (split_key : Raw) (split_index : Index)
    (view : PageView) (parent : Option PageView) : Except Error Unit :=
  match view.page.kind with
  | .Data => .ok ()
  | .Split =>
    match parent with
    | some p => reconcile_split_page casOk split_key split_index view p
    | none => .error .InvalidArgument

/-!  The CAS loop of `try_write` (`tree/mod.rs` lines 173-202).  The page
store is abstracted by `pageInfoAt` (what `read_page_info` returns at each
address) and the outcomes of successive `update_page` calls are given as a
schedule list; `none` means the schedule was exhausted with the loop still
running. -/

/-- Outcome of one `Txn::update_page` call. -/
inductive UpdatePageResult where
  | ok
  | errNone
  | errSome (curAddr : Nat)
deriving Repr, DecidableEq

/-- The delta page info right after `set_epoch`/`set_chain_len`/
`set_chain_next` in the loop body (lines 174-176): epoch copied from the
head, chain length one more than the head's, chain next pointing at the
head. -/
def write_delta_info (view : PageView) (deltaSize : Nat) : PageInfo :=
  { epoch := view.page.epoch
    chainLen := view.page.chainLen + 1
    chainNext := view.addr
    kind := .Data
    tier := .Leaf
    size := deltaSize }

/-- The CAS loop of `try_write` (lines 173-202).  On success the view is
moved to the installed delta; `Err(None)` aborts with `Again`;
`Err(Some((txn, addr)))` retries against `addr` only when the page is not
the root and the epoch at `addr` still matches the observed view. -/
def try_write_cas (pageInfoAt : Nat → PageInfo) (newAddr deltaSize : Nat) :
    List UpdatePageResult → PageView → Option (Except Error PageView)
  | [], _ => none
  | r :: rs, view =>
    match r with
    | .ok =>
      some (.ok { view with addr := newAddr, page := write_delta_info view deltaSize })
    | .errNone => some (.error .Again)
    | .errSome cur =>
      if view.id ≠ ROOT_ID ∧ (pageInfoAt cur).epoch = view.page.epoch then
        try_write_cas pageInfoAt newAddr deltaSize rs
          { view with addr := cur, page := pageInfoAt cur }
      else
        some (.error .Again)

/-!  Sorted leaf pages and `find_value` (`tree/mod.rs` lines 344-378).
The sorted-page payload code itself is not part of the sources given, so
`rank` is modelled from the spec (§4.2). -/

/-- A leaf page of the chain: its kind and its decoded `(Key, Value)` run. -/
structure LeafPage where
  kind : PageKind
  entries : List (Key × Value)
deriving Repr, DecidableEq

/-- Modelled from the spec: the index computed by `rank`'s binary search on
a sorted run — the first position whose key is not less than the target
(equal to `Ok(i)`'s and `Err(i)`'s index alike, which is all `find_value`
uses of it). -/
def lowerBound (es : List (Key × Value)) (key : Key) : Nat :=
  match es with
  | [] => 0
  | (k, _) :: rest => if Key.lt k key then lowerBound rest key + 1 else 0

/-- Modelled from the spec: `rank(key) → Ok(i) | Err(i)` — binary search
with the insertion index on a miss (§4.2). -/
def rank (es : List (Key × Value)) (key : Key) : Sum Nat Nat :=
  let i := lowerBound es key
  match es[i]? with
  | some (k, _) => if k = key then .inl i else .inr i
  | none => .inr i

/-- The index `find_value` extracts from `rank` (lines 358-361): the same
index whether the search hit (`Ok`) or missed (`Err`). -/
def rank_index (es : List (Key × Value)) (key : Key) : Nat :=
  match rank es key with
  | .inl i => i
  | .inr i => i

/-- `find_value` (lines 345-378): walk the leaf chain from the head, skip
non-`Data` pages, and stop at the first `Data` page whose ranked entry has
the searched raw key — `Put` yields the bytes, `Delete` yields nothing; if
no page matches, the result is nothing. -/
def find_value (key : Key) : List LeafPage → Option Raw
  | [] => none
  | p :: rest =>
    if p.kind = .Data then
      match p.entries[rank_index p.entries key]? with
      | some (k, v) =>
        if k.raw = key.raw then
          match v with
          | .Put b => some b
          | .Delete => none
        else find_value key rest
      | none => find_value key rest
    else find_value key rest

/-- The per-page outcome of `find_value`'s closure: the matching entry of a
`Data` page, if any. -/
def page_match (key : Key) (p : LeafPage) : Option (Key × Value) :=
  if p.kind = .Data then
    match p.entries[rank_index p.entries key]? with
    | some (k, v) => if k.raw = key.raw then some (k, v) else none
    | none => none
  else none

/-!  Consolidation-info collection (`collect_consolidation_info`,
`tree/mod.rs` lines 677-739). -/

/-- One page of a chain as visited by `walk_page`: its address, its header,
and (for a `Split` delta) its split key. -/
structure CPage where
  addr : Nat
  info : PageInfo
  splitKey : Raw
deriving Repr, DecidableEq

/-- The mutable state of the collection walk: the number of data iterators
added to the builder, the accumulated `page_size`, the first split key seen
(`range_limit`), the info of the last visited page, and the collected
addresses. -/
structure CollectState where
  builderLen : Nat
  pageSize : Nat
  rangeLimit : Option Raw
  lastPage : PageInfo
  pageAddrs : List Nat
deriving Repr, DecidableEq

/-- One step of the walk closure (lines 694-723).  `none` means the closure
returned `true` before touching this page: the partial-consolidation cut. -/
def collect_step (opts : Options) (s : CollectState) (p : CPage) :
    Option CollectState :=
  match p.info.kind with
  | .Data =>
    if p.info.tier = .Leaf ∧ 2 ≤ s.builderLen ∧ s.pageSize < p.info.size / 2 ∧
        s.rangeLimit = none ∧ should_consolidate_page opts p.info = false then
      none
    else
      some { builderLen := s.builderLen + 1
             pageSize := s.pageSize + p.info.size
             rangeLimit := s.rangeLimit
             lastPage := p.info
             pageAddrs := s.pageAddrs ++ [p.addr] }
  | .Split =>
    some { builderLen := s.builderLen
           pageSize := s.pageSize
           rangeLimit := match s.rangeLimit with
                         | none => some p.splitKey
                         | some k => some k
           lastPage := p.info
           pageAddrs := s.pageAddrs ++ [p.addr] }

/-- The walk of `collect_consolidation_info` over the chain, stopping at the
first cut. -/
def collect_walk (opts : Options) : List CPage → CollectState → CollectState
  | [], s => s
  | p :: rest, s =>
    match collect_step opts s p with
    | none => s
    | some s2 => collect_walk opts rest s2

/-- `collect_consolidation_info` (lines 677-739): the walk started from an
empty builder, zero accumulated size, no range limit, the viewed head as
`last_page`, and no collected addresses. -/
def collect_consolidation_info (opts : Options) (view : PageView)
    (chain : List CPage) : CollectState :=
  collect_walk opts chain ⟨0, 0, none, view.page, []⟩

/-- The cut condition exactly as the claim words it, with "the next page's
size is more than double the accumulated size" read as
`accumulated * 2 < size`. -/
def claim_cut (opts : Options) (s : CollectState) (p : CPage) : Bool :=
  p.info.kind == .Data && p.info.tier == .Leaf && 2 ≤ s.builderLen &&
    s.pageSize * 2 < p.info.size && s.rangeLimit == none &&
    should_consolidate_page opts p.info == false

/-!  Root split (`split_root_impl`, `tree/mod.rs` lines 488-542).  The
sorted-page `into_split_iter` is not part of the sources given and is
modelled from the spec (§4.2). -/

/-- Modelled from the spec: `into_split_iter()` returns `None` if the page
has fewer than two distinct keys (a sorted run has pairwise-distinct keys,
so fewer than two entries); otherwise it picks a midpoint with both halves
non-empty, the split key being the smallest key of the right half. -/
def into_split_iter (es : List (Key × Value)) :
    Option (Key × List (Key × Value) × List (Key × Value)) :=
  if es.length < 2 then none
  else
    match es[es.length / 2]? with
    | some (k, _) => some (k, es.take (es.length / 2), es.drop (es.length / 2))
    | none => none

/-- The observable effect of a successful root split. -/
structure RootSplitEffect where
  leftId : Nat
  rightId : Nat
  leftEntries : List (Key × Value)
  rightEntries : List (Key × Value)
  newRootEntries : List (Raw × Index)
  newRootTier : PageTier
  newRootKind : PageKind
  deallocated : List Nat
deriving Repr, DecidableEq

/-- `split_root_impl` (lines 488-542): split the base payload; install the
two halves as fresh logical pages (ids handed out in order by
`insert_page`); atomically replace the root head with a brand-new inner
data page holding `([], left)` and `(split_key, right)`, scheduling the old
root address for deallocation.  `nextId` is the next id the page store will
hand out, `casOk` the outcome of `replace_page`. -/
def split_root_impl (casOk : Bool) (nextId : Nat) (view : PageView)
    (es : List (Key × Value)) : Except Error (Option RootSplitEffect) :=
  match into_split_iter es with
  | none => .ok none
  | some (split_key, left_iter, right_iter) =>
    let left_id := nextId
    let right_id := nextId + 1
    if casOk then
      .ok (some
        { leftId := left_id
          rightId := right_id
          leftEntries := left_iter
          rightEntries := right_iter
          newRootEntries := [([], Index.mk left_id 0), (split_key.raw, Index.mk right_id 0)]
          newRootTier := .Inner
          newRootKind := .Data
          deallocated := [view.addr] })
    else .error .Again

/-!  Reachable-state model for the root invariants (`tree/mod.rs`:
`init` lines 87-104, `try_write` lines 173-202, `split_page_impl` lines
434-486, `split_root_impl` lines 488-542, `consolidate_page_impl` lines
637-674, `reconcile_split_page` lines 571-620).  The state keeps every
page header ever installed (the store is add-only at fresh addresses) and
the address of the root head.  Transitions over-approximate the code: a
non-root operation may pick any stored page as its observed head, which
only enlarges the set of reachable states. -/

/-- A page header as installed by the builders: `epoch`, `chain_len`,
`chain_next`, `kind`, `tier`. -/
structure Hdr where
  epoch : Nat
  chainLen : Nat
  chainNext : Nat
  kind : PageKind
  tier : PageTier
deriving Repr, DecidableEq

/-- A freshly built base page: the builder's defaults are epoch 0,
chain length 1, chain next 0, kind `Data`. -/
def baseHdr (t : PageTier) : Hdr := ⟨0, 1, 0, .Data, t⟩

/-- The machine state: the next fresh address, the headers installed so
far, and the address of the root head. -/
structure TState where
  n : Nat
  store : Nat → Option Hdr
  root : Nat

/-- Install a header at an address. -/
def installAt (f : Nat → Option Hdr) (a : Nat) (h : Hdr) : Nat → Option Hdr :=
  fun x => if x = a then some h else f x

/-- The state right after `TreeTxn::init` (lines 87-104): one empty leaf
base page installed as the root. -/
def initState : TState :=
  { n := 2
    store := fun a => if a = 1 then some (baseHdr .Leaf) else none
    root := 1 }

/-- One tree mutation, as installed by the corresponding source path. -/
inductive Step : TState → TState → Prop where
  /-- `try_write` CAS success on the root chain: a leaf data delta with the
  head's epoch, one more chain link, pointing at the old head
  (lines 173-183). -/
  | write_root (s : TState) (h : Hdr) :
      s.store s.root = some h →
      Step s ⟨s.n + 1,
        installAt s.store s.n ⟨h.epoch, h.chainLen + 1, s.root, .Data, .Leaf⟩,
        s.n⟩
  /-- `try_write` CAS success on a non-root chain whose head is any stored
  page. -/
  | write_other (s : TState) (a : Nat) (h : Hdr) :
      s.store a = some h →
      Step s ⟨s.n + 1,
        installAt s.store s.n ⟨h.epoch, h.chainLen + 1, a, .Data, .Leaf⟩,
        s.root⟩
  /-- `split_page_impl` on a non-root page (lines 434-486): a fresh right
  base page plus a split delta with epoch bumped by one. -/
  | split_nonroot (s : TState) (a : Nat) (h : Hdr) :
      s.store a = some h → h.kind = .Data → h.chainNext = 0 →
      Step s ⟨s.n + 2,
        installAt (installAt s.store s.n (baseHdr h.tier)) (s.n + 1)
          ⟨h.epoch + 1, h.chainLen + 1, a, .Split, h.tier⟩,
        s.root⟩
  /-- `split_root_impl` (lines 488-542): two fresh halves and a brand-new
  inner base page that replaces the root head.  The guard is what
  `split_page` checked before dispatching (lines 423-432). -/
  | split_root (s : TState) (h : Hdr) :
      s.store s.root = some h → h.kind = .Data → h.chainNext = 0 →
      Step s ⟨s.n + 3,
        installAt (installAt (installAt s.store s.n (baseHdr h.tier)) (s.n + 1)
          (baseHdr h.tier)) (s.n + 2) (baseHdr .Inner),
        s.n + 2⟩
  /-- `consolidate_page_impl` on the root (lines 637-674): a new data base
  with the head's epoch and the `last_page`'s chain length and chain next;
  `last_page` is a page of the walked chain, over-approximated as any
  stored page. -/
  | consolidate_root (s : TState) (h hb : Hdr) (b : Nat) :
      s.store s.root = some h → s.store b = some hb →
      Step s ⟨s.n + 1,
        installAt s.store s.n ⟨h.epoch, hb.chainLen, hb.chainNext, .Data, h.tier⟩,
        s.n⟩
  /-- `consolidate_page_impl` on a non-root page. -/
  | consolidate_other (s : TState) (a b : Nat) (h hb : Hdr) :
      s.store a = some h → s.store b = some hb →
      Step s ⟨s.n + 1,
        installAt s.store s.n ⟨h.epoch, hb.chainLen, hb.chainNext, .Data, h.tier⟩,
        s.root⟩
  /-- `reconcile_split_page` with the root as parent (lines 571-613): an
  inner data delta with the parent's epoch prepended to the parent. -/
  | reconcile_root (s : TState) (h : Hdr) :
      s.store s.root = some h →
      Step s ⟨s.n + 1,
        installAt s.store s.n ⟨h.epoch, h.chainLen + 1, s.root, .Data, .Inner⟩,
        s.n⟩
  /-- `reconcile_split_page` with a non-root parent. -/
  | reconcile_other (s : TState) (a : Nat) (h : Hdr) :
      s.store a = some h →
      Step s ⟨s.n + 1,
        installAt s.store s.n ⟨h.epoch, h.chainLen + 1, a, .Data, .Inner⟩,
        s.root⟩

/-- States reachable from `init`. -/
inductive Reachable : TState → Prop where
  | init : Reachable initState
  | step {s s2 : TState} : Reachable s → Step s s2 → Reachable s2

/-- The inductive invariant: every stored base page (chain next 0) has
chain length 1; the root head exists and has epoch 0; addresses at or above
the allocation counter are free; the root address is allocated and nonzero. -/
def Inv (s : TState) : Prop :=
  (∀ a h, s.store a = some h → h.chainNext = 0 → h.chainLen = 1) ∧
  (∃ h, s.store s.root = some h ∧ h.epoch = 0) ∧
  (∀ a, s.n ≤ a → s.store a = none) ∧
  s.root < s.n ∧
  s.store 0 = none

/-!  Scan iterator (`TreeIter`, `tree/mod.rs` lines 772-833).  The page
reads behind `seek`/`page_view` are abstracted: `epochOf` gives the epoch
`page_view` observes for a logical id, and `seekState` the iterator state
`seek(target)` leaves behind. -/

/-- The two fields of `TreeIter` the control flow depends on: the merged
parent iterator (as its remaining entries) and the remembered restart key. -/
structure IterState where
  innerIter : Option (List (Raw × Index))
  innerNext : Option Raw
deriving Repr, DecidableEq

/-- `TreeIter::new` (lines 780-788): no parent iterator yet and the empty
key remembered as the first seek target. -/
def TreeIter_new : IterState := ⟨none, some []⟩

/-- What one `next_page` call does: emit the child with the given id, seek
from a key, or finish. -/
inductive NextPageRes where
  | emit (id : Nat)
  | seekFrom (target : Raw)
  | done
deriving Repr, DecidableEq

/-- `TreeIter::next_page` (lines 810-832): pop the parent's next entry; on
a matching child epoch emit that child, on a changed epoch reseek from the
entry's key; with the parent exhausted reseek from the remembered key; with
nothing remembered, scanning is over. -/
def next_page (epochOf : Nat → Nat) (seekState : Raw → IterState)
    (s : IterState) : NextPageRes × IterState :=
  let inner_next := s.innerNext
  match s.innerIter with
  | some ((start, index) :: rest) =>
    if epochOf index.id = index.epoch then
      (.emit index.id, ⟨some rest, inner_next⟩)
    else
      (.seekFrom start, seekState start)
  | some [] =>
    match inner_next with
    | some nxt => (.seekFrom nxt, seekState nxt)
    | none => (.done, ⟨none, none⟩)
  | none =>
    match inner_next with
    | some nxt => (.seekFrom nxt, seekState nxt)
    | none => (.done, ⟨none, none⟩)

/-!  `find_child` (`tree/mod.rs` lines 383-420), used for the descent of a
seek: the two bracketing entries of an inner data page around the key. -/

/-- An inner page of a chain: its kind and its decoded `(raw, Index)` run. -/
structure InnerPage where
  kind : PageKind
  entries : List (Raw × Index)
deriving Repr, DecidableEq

/-- Modelled from the spec: `rank`'s binary search index over an inner
sorted run — the first position whose key is not less than the target. -/
def lowerBoundRaw (es : List (Raw × Index)) (key : Raw) : Nat :=
  match es with
  | [] => 0
  | (k, _) :: rest => if cmpRaw k key = .lt then lowerBoundRaw rest key + 1 else 0

/-- Modelled from the spec: `rank(key) → Ok(i) | Err(i)` on an inner page. -/
def rankRaw (es : List (Raw × Index)) (key : Raw) : Sum Nat Nat :=
  let i := lowerBoundRaw es key
  match es[i]? with
  | some (k, _) => if k = key then .inl i else .inr i
  | none => .inr i

/-- The closure body of `find_child` (lines 391-415) on one page: bracket
the key between two entries and accept the left one unless it is the
`NULL_INDEX` placeholder. -/
def find_child_page (key : Raw) (p : InnerPage) : Option (Index × RangeRec) :=
  if p.kind = .Data then
    let lr : Option (Raw × Index) × Option (Raw × Index) :=
      match rankRaw p.entries key with
      | .inl i => (p.entries[i]?, p.entries[i + 1]?)
      | .inr i => (if i = 0 then none else p.entries[i - 1]?, p.entries[i]?)
    match lr.1 with
    | some (start, index) =>
      if index ≠ NULL_INDEX then
        some (index, ⟨start, lr.2.map Prod.fst⟩)
      else none
    | none => none
  else none

/-- `find_child` over the chain: the first page that yields a child wins. -/
def find_child (key : Raw) : List InnerPage → Option (Index × RangeRec)
  | [] => none
  | p :: rest =>
    match find_child_page key p with
    | some c => some c
    | none => find_child key rest

/-!  Theorems for the claims. -/

/-- C7: leaf-key ordering — with equal raws, `Key{k,a} < Key{k,b}` iff
`a > b` (lsn descending); with distinct raws, the order is lexicographic on
the raw bytes; and two keys are equal iff both their raw and their lsn
agree. -/
theorem key_ordering_law :
    (∀ (k : Raw) (a b : Nat), Key.lt ⟨k, a⟩ ⟨k, b⟩ ↔ a > b) ∧
    (∀ (k1 k2 : Raw) (a b : Nat), k1 ≠ k2 →
      (Key.lt ⟨k1, a⟩ ⟨k2, b⟩ ↔ List.Lex (· < ·) k1 k2)) ∧
    (∀ a b : Key, Key.beq a b = true ↔ a.raw = b.raw ∧ a.lsn = b.lsn) := by
  refine ⟨?_, ?_, ?_⟩
  · intro k a b
    exact Key.lt_same_raw_iff k a b
  · intro k1 k2 a b hne
    exact Key.lt_ne_raw_iff k1 k2 a b hne
  · intro a b
    exact Key.beq_iff a b

theorem key_ordering_law_w : Key.lt ⟨[0], 5⟩ ⟨[1], 3⟩ :=
  (key_ordering_law.2.1 [0] [1] 5 3 (by decide)).mpr (List.Lex.rel (by decide))

/-- C8: `set_safe_lsn` leaves a value that is already at least `lsn`
unchanged and otherwise raises it to `lsn`; consequently the safe LSN never
decreases along any sequence of calls. -/
theorem safe_lsn_monotonic :
    (∀ cur lsn, lsn ≤ cur → set_safe_lsn cur lsn = cur) ∧
    (∀ cur lsn, cur < lsn → set_safe_lsn cur lsn = lsn) ∧
    (∀ cur lsn, cur ≤ set_safe_lsn cur lsn) ∧
    (∀ cur lsns, cur ≤ List.foldl set_safe_lsn cur lsns) := by
  have hstep : ∀ cur lsn, cur ≤ set_safe_lsn cur lsn := by
    intro cur lsn
    unfold set_safe_lsn
    split
    · exact le_refl cur
    · next hlt => exact Nat.le_of_lt (Nat.lt_of_not_le hlt)
  have hfold : ∀ lsns cur, cur ≤ List.foldl set_safe_lsn cur lsns := by
    intro lsns
    induction lsns with
    | nil => intro cur; exact le_refl cur
    | cons l ls ih =>
      intro cur
      exact le_trans (hstep cur l) (ih (set_safe_lsn cur l))
  refine ⟨?_, ?_, hstep, fun cur lsns => hfold lsns cur⟩
  · intro cur lsn hle
    unfold set_safe_lsn
    exact if_pos hle
  · intro cur lsn hlt
    unfold set_safe_lsn
    exact if_neg (Nat.not_le_of_lt hlt)

theorem safe_lsn_monotonic_w : set_safe_lsn 5 3 = 5 :=
  safe_lsn_monotonic.1 5 3 (by decide)

/-- C2 counterexample: `PerfCtx::reset` does not leave
`get_page_from_cache_count` unchanged — on a context where that field is 5,
the reset context carries 0. -/
theorem perf_reset_counterexample :
    (PerfCtx.reset ⟨1, 1, 1, 1, 1, 1, 1, 1, 1, 1, 5, 6, 7, 8, 9⟩).get_page_from_cache_count ≠
      (⟨1, 1, 1, 1, 1, 1, 1, 1, 1, 1, 5, 6, 7, 8, 9⟩ : PerfCtx).get_page_from_cache_count := by
  decide

/-- C2 (amended): `PerfCtx::reset` zeroes every field — the duration fields
and also `get_page_from_cache_count`, `get_page_from_cache_miss_count`,
`get_page_info_count`, `consolidate_page_size` and `consolidate_length`. -/
theorem perf_reset_zeroes_all (c : PerfCtx) : PerfCtx.reset c = PerfCtx.zero := rfl

/-- C1 counterexample: `reconcile_page` on a view whose head page has kind
`Data` returns `Ok(())`, not the `InvalidArgument` error. -/
theorem reconcile_data_counterexample :
    reconcile_page true [] NULL_INDEX ⟨5, 7, ⟨0, 1, 0, .Data, .Leaf, 10⟩, none⟩ none = .ok () ∧
    (Except.ok () : Except Error Unit) ≠ .error .InvalidArgument :=
  ⟨rfl, fun h => Except.noConfusion h⟩

/-- C1 (amended): `reconcile_page` on a `Data` head is a successful no-op
(`Ok(())`); `InvalidArgument` is returned exactly when the head is a
`Split` page and there is no parent, or the view carries no range. -/
theorem reconcile_page_cases :
    (∀ casOk sk si (view : PageView) parent, view.page.kind = .Data →
       reconcile_page casOk sk si view parent = .ok ()) ∧
    (∀ casOk sk si (view : PageView) parent,
       reconcile_page casOk sk si view parent = .error .InvalidArgument ↔
         view.page.kind = .Split ∧ (parent = none ∨ view.range = none)) := by
  constructor
  · intro casOk sk si view parent hk
    unfold reconcile_page
    rw [hk]
  · intro casOk sk si view parent
    cases hk : view.page.kind with
    | Data => simp [reconcile_page, hk]
    | Split =>
      cases parent with
      | none => simp [reconcile_page, hk]
      | some p =>
        cases hr : view.range with
        | none => simp [reconcile_page, reconcile_split_page, hk, hr]
        | some rg =>
          cases casOk with
          | true => simp [reconcile_page, reconcile_split_page, hk, hr]
          | false => simp [reconcile_page, reconcile_split_page, hk, hr]

theorem reconcile_page_cases_w :
    reconcile_page false [2] ⟨3, 1⟩ ⟨4, 9, ⟨2, 3, 5, .Data, .Leaf, 11⟩, none⟩
      (some ⟨1, 2, ⟨0, 1, 0, .Data, .Inner, 4⟩, none⟩) = .ok () :=
  reconcile_page_cases.1 false [2] ⟨3, 1⟩ _ _ rfl

/-- C3: the CAS loop of `try_write` retries against the returned current
address — with the view (and hence the delta's chain next and chain length)
refreshed from the head read there — if and only if the page is not the
root and the epoch read at that address equals the observed view's epoch;
`Err(None)`, the root, and a changed epoch all end in `Again`, and a
successful CAS installs a delta whose epoch copies the view, whose chain
length is the view's plus one, and whose chain next is the view's address. -/
theorem try_write_retry_discipline :
    (∀ pinfo newAddr dsz cur (rs : List UpdatePageResult) (v : PageView),
       v.id ≠ ROOT_ID → (pinfo cur).epoch = v.page.epoch →
       try_write_cas pinfo newAddr dsz (.errSome cur :: rs) v =
         try_write_cas pinfo newAddr dsz rs
           { v with addr := cur, page := pinfo cur }) ∧
    (∀ pinfo newAddr dsz cur (rs : List UpdatePageResult) (v : PageView),
       v.id = ROOT_ID ∨ (pinfo cur).epoch ≠ v.page.epoch →
       try_write_cas pinfo newAddr dsz (.errSome cur :: rs) v =
         some (.error .Again)) ∧
    (∀ pinfo newAddr dsz (rs : List UpdatePageResult) (v : PageView),
       try_write_cas pinfo newAddr dsz (.errNone :: rs) v =
         some (.error .Again)) ∧
    (∀ pinfo newAddr dsz (rs : List UpdatePageResult) (v : PageView),
       try_write_cas pinfo newAddr dsz (.ok :: rs) v =
         some (.ok { v with addr := newAddr, page := write_delta_info v dsz }) ∧
       (write_delta_info v dsz).chainNext = v.addr ∧
       (write_delta_info v dsz).chainLen = v.page.chainLen + 1 ∧
       (write_delta_info v dsz).epoch = v.page.epoch) := by
  refine ⟨?_, ?_, ?_, ?_⟩
  · intro pinfo newAddr dsz cur rs v hid hep
    simp only [try_write_cas]
    rw [if_pos ⟨hid, hep⟩]
  · intro pinfo newAddr dsz cur rs v hcase
    simp only [try_write_cas]
    rw [if_neg]
    rintro ⟨hid, hep⟩
    rcases hcase with h | h
    · exact hid h
    · exact h hep
  · intro pinfo newAddr dsz rs v
    rfl
  · intro pinfo newAddr dsz rs v
    exact ⟨rfl, rfl, rfl, rfl⟩

theorem try_write_retry_discipline_w :
    try_write_cas (fun _ => ⟨0, 1, 0, .Data, .Leaf, 1⟩) 9 1 [.errSome 4, .ok]
        ⟨1, 3, ⟨0, 2, 0, .Data, .Leaf, 5⟩, none⟩ =
      try_write_cas (fun _ => ⟨0, 1, 0, .Data, .Leaf, 1⟩) 9 1 [.ok]
        ⟨1, 4, ⟨0, 1, 0, .Data, .Leaf, 1⟩, none⟩ :=
  try_write_retry_discipline.1 _ 9 1 4 [.ok] _ (by decide) rfl

/-- C4 counterexample: on a leaf chain of data pages of sizes 1, 2 and 7
(with `page_chain_length = 10`), after collecting the first two pages the
accumulated size is 3 and the claim's cut condition holds at the third page
(7 is more than double 3, no split key, at least two pages collected, the
page does not itself warrant consolidation) — yet the walk extends over it
and collects all three addresses instead of stopping at two, because the
code's test is `page_size < size / 2` with truncating division
(`3 < 7 / 2 = 3` fails). -/
theorem collect_cut_counterexample :
    claim_cut ⟨100, 10⟩
        (collect_walk ⟨100, 10⟩
          [⟨11, ⟨0, 3, 12, .Data, .Leaf, 1⟩, []⟩, ⟨12, ⟨0, 2, 13, .Data, .Leaf, 2⟩, []⟩]
          ⟨0, 0, none, ⟨0, 3, 12, .Data, .Leaf, 1⟩, []⟩)
        ⟨13, ⟨0, 1, 0, .Data, .Leaf, 7⟩, []⟩ = true ∧
    (collect_consolidation_info ⟨100, 10⟩ ⟨3, 11, ⟨0, 3, 12, .Data, .Leaf, 1⟩, none⟩
        [⟨11, ⟨0, 3, 12, .Data, .Leaf, 1⟩, []⟩, ⟨12, ⟨0, 2, 13, .Data, .Leaf, 2⟩, []⟩,
         ⟨13, ⟨0, 1, 0, .Data, .Leaf, 7⟩, []⟩]).pageAddrs = [11, 12, 13] := by
  decide

/-- C4 (amended): the collection walk stops at a `Data` page exactly when
the page is a leaf, at least two data pages have been collected, no split
key has been seen, the accumulated size is less than the page's size
divided by two with truncating integer division (rather than "the size is
more than double the accumulated size"), and the page does not itself
satisfy `should_consolidate_page`; the cut never applies to inner pages. -/
theorem partial_consolidation_cut :
    (∀ opts s (p : CPage), collect_step opts s p = none ↔
       (p.info.kind = .Data ∧ p.info.tier = .Leaf ∧ 2 ≤ s.builderLen ∧
        s.pageSize < p.info.size / 2 ∧ s.rangeLimit = none ∧
        should_consolidate_page opts p.info = false)) ∧
    (∀ opts s (p : CPage), p.info.tier = .Inner → collect_step opts s p ≠ none) ∧
    (∀ opts (p : CPage) rest s, collect_step opts s p = none →
       collect_walk opts (p :: rest) s = s) ∧
    (∀ opts (p : CPage) rest s s2, collect_step opts s p = some s2 →
       collect_walk opts (p :: rest) s = collect_walk opts rest s2) := by
  refine ⟨?_, ?_, ?_, ?_⟩
  · intro opts s p
    cases hk : p.info.kind with
    | Split => simp [collect_step, hk]
    | Data =>
      simp only [collect_step, hk]
      by_cases hc : (p.info.tier = .Leaf ∧ 2 ≤ s.builderLen ∧
          s.pageSize < p.info.size / 2 ∧ s.rangeLimit = none ∧
          should_consolidate_page opts p.info = false)
      · rw [if_pos hc]
        exact ⟨fun _ => ⟨by trivial, hc⟩, fun _ => by trivial⟩
      · rw [if_neg hc]
        exact ⟨fun h => Option.noConfusion h, fun h => absurd h.2 hc⟩
  · intro opts s p hinner
    cases hk : p.info.kind with
    | Split => simp [collect_step, hk]
    | Data =>
      simp only [collect_step, hk]
      rw [if_neg]
      · exact fun h => Option.noConfusion h
      · rintro ⟨ht, -⟩
        rw [hinner] at ht
        exact PageTier.noConfusion ht
  · intro opts p rest s h
    simp [collect_walk, h]
  · intro opts p rest s s2 h
    simp [collect_walk, h]

theorem partial_consolidation_cut_w :
    collect_step ⟨4, 2⟩ ⟨3, 3, none, ⟨0, 1, 0, .Data, .Inner, 9⟩, []⟩
      ⟨7, ⟨0, 1, 0, .Data, .Inner, 9⟩, []⟩ ≠ none :=
  partial_consolidation_cut.2.1 ⟨4, 2⟩ _ _ rfl

/-!  Supporting lemmas for the read path (C5). -/

theorem rank_index_eq_lowerBound (es : List (Key × Value)) (key : Key) :
    rank_index es key = lowerBound es key := by
  unfold rank_index rank
  cases h : es[lowerBound es key]? with
  | none => simp [h]
  | some kv =>
    obtain ⟨k, v⟩ := kv
    by_cases hk : k = key
    · simp [h, hk]
    · simp [h, hk]

theorem get_lowerBound_not_lt (key : Key) :
    ∀ (es : List (Key × Value)) (k : Key) (v : Value),
      es[lowerBound es key]? = some (k, v) → ¬ Key.lt k key := by
  intro es
  induction es with
  | nil => intro k v h; exact Option.noConfusion h
  | cons e rest ih =>
    obtain ⟨k0, v0⟩ := e
    intro k v h
    by_cases hlt : Key.lt k0 key
    · rw [show lowerBound ((k0, v0) :: rest) key = lowerBound rest key + 1 from by
          simp [lowerBound, hlt]] at h
      rw [List.getElem?_cons_succ] at h
      exact ih k v h
    · rw [show lowerBound ((k0, v0) :: rest) key = 0 from by
          simp [lowerBound, hlt]] at h
      rw [List.getElem?_cons_zero] at h
      injection h with h2
      injection h2 with hk hv
      subst hk
      exact hlt

theorem not_lt_same_raw_lsn_le (k key : Key) (hraw : k.raw = key.raw)
    (h : ¬ Key.lt k key) : k.lsn ≤ key.lsn := by
  by_contra hgt
  push_neg at hgt
  apply h
  obtain ⟨kr, kl⟩ := k
  obtain ⟨qr, ql⟩ := key
  simp only at hraw
  subst hraw
  exact (Key.lt_same_raw_iff kr kl ql).mpr hgt

theorem page_match_eq_some (key : Key) (p : LeafPage) (k : Key) (v : Value)
    (h : page_match key p = some (k, v)) :
    p.kind = .Data ∧ p.entries[rank_index p.entries key]? = some (k, v) ∧
      k.raw = key.raw := by
  unfold page_match at h
  by_cases hd : p.kind = .Data
  · rw [if_pos hd] at h
    cases hg : p.entries[rank_index p.entries key]? with
    | none => rw [hg] at h; exact Option.noConfusion h
    | some kv =>
      obtain ⟨k2, v2⟩ := kv
      simp only [hg] at h
      by_cases hraw : k2.raw = key.raw
      · rw [if_pos hraw] at h
        injection h with h2
        injection h2 with hk hv
        subst hk
        subst hv
        exact ⟨hd, rfl, hraw⟩
      · rw [if_neg hraw] at h; exact Option.noConfusion h
  · rw [if_neg hd] at h; exact Option.noConfusion h

theorem find_value_cons (key : Key) (p : LeafPage) (rest : List LeafPage) :
    find_value key (p :: rest) =
      match page_match key p with
      | some (_, .Put b) => some b
      | some (_, .Delete) => none
      | none => find_value key rest := by
  by_cases hd : p.kind = .Data
  · cases hg : p.entries[rank_index p.entries key]? with
    | none => simp [find_value, page_match, hd, hg]
    | some kv =>
      obtain ⟨k2, v2⟩ := kv
      by_cases hraw : k2.raw = key.raw
      · cases v2 with
        | Put b => simp [find_value, page_match, hd, hg, hraw]
        | Delete => simp [find_value, page_match, hd, hg, hraw]
      · simp [find_value, page_match, hd, hg, hraw]
  · simp [find_value, page_match, hd]

/-- C5: the read path walks the leaf chain from head to tail, skips `Split`
pages, and the first `Data` page whose ranked entry carries the searched
raw key determines the result — the bytes for a `Put`, nothing for a
`Delete` — and that entry's lsn never exceeds the searched lsn; when no
page of the chain matches, the result is nothing. -/
theorem find_value_walk :
    (∀ key chain, (∀ p ∈ chain, page_match key p = none) →
       find_value key chain = none) ∧
    (∀ key (pre : List LeafPage) (p : LeafPage) suf (k : Key) (v : Value),
       (∀ q ∈ pre, page_match key q = none) →
       page_match key p = some (k, v) →
       (find_value key (pre ++ p :: suf) =
          match v with
          | .Put b => some b
          | .Delete => none) ∧
       p.kind = .Data ∧ k.raw = key.raw ∧ k.lsn ≤ key.lsn) := by
  constructor
  · intro key chain
    induction chain with
    | nil => intro _; rfl
    | cons p rest ih =>
      intro hall
      rw [find_value_cons, hall p (by simp)]
      exact ih fun q hq => hall q (by simp [hq])
  · intro key pre
    induction pre with
    | nil =>
      intro p suf k v _ hmatch
      obtain ⟨hd, hget, hraw⟩ := page_match_eq_some key p k v hmatch
      rw [rank_index_eq_lowerBound] at hget
      have hnlt := get_lowerBound_not_lt key p.entries k v hget
      have hlsn := not_lt_same_raw_lsn_le k key hraw hnlt
      refine ⟨?_, hd, hraw, hlsn⟩
      rw [List.nil_append, find_value_cons, hmatch]
      cases v with
      | Put b => rfl
      | Delete => rfl
    | cons q pre2 ih =>
      intro p suf k v hpre hmatch
      have hq : page_match key q = none := hpre q (by simp)
      have ih2 := ih p suf k v (fun r hr => hpre r (by simp [hr])) hmatch
      refine ⟨?_, ih2.2⟩
      rw [List.cons_append, find_value_cons, hq]
      exact ih2.1

theorem find_value_walk_w :
    find_value ⟨[1], 5⟩ [⟨.Data, [(⟨[1], 3⟩, .Put [7])]⟩] = some [7] := by
  have h := find_value_walk.2 ⟨[1], 5⟩ [] ⟨.Data, [(⟨[1], 3⟩, .Put [7])]⟩ []
    ⟨[1], 3⟩ (.Put [7]) (by intro q hq; cases hq) (by decide)
  exact h.1

/-- C6: a root split on a base page with at least two (distinct, since the
run is sorted) keys installs the two halves as fresh logical pages with the
next two ids, and atomically replaces the root head — with the old root
address scheduled for deallocation — by a brand-new inner data base page
holding exactly `([], Index{left_id, 0})` and
`(split_key, Index{right_id, 0})`; with fewer than two keys it returns `Ok`
with no change. -/
theorem split_root_spec :
    (∀ casOk nextId (view : PageView) (es : List (Key × Value)),
       es.length < 2 → split_root_impl casOk nextId view es = .ok none) ∧
    (∀ nextId (view : PageView) (es : List (Key × Value)), 2 ≤ es.length →
       ∃ sk l r,
         into_split_iter es = some (sk, l, r) ∧
         split_root_impl true nextId view es = .ok (some
           { leftId := nextId
             rightId := nextId + 1
             leftEntries := l
             rightEntries := r
             newRootEntries := [([], Index.mk nextId 0), (sk.raw, Index.mk (nextId + 1) 0)]
             newRootTier := .Inner
             newRootKind := .Data
             deallocated := [view.addr] }) ∧
         l ++ r = es ∧ l ≠ [] ∧ r ≠ [] ∧ r.head?.map Prod.fst = some sk) := by
  constructor
  · intro casOk nextId view es h
    unfold split_root_impl into_split_iter
    rw [if_pos h]
  · intro nextId view es h2
    have hlen : 0 < es.length := lt_of_lt_of_le (by norm_num) h2
    have hm : es.length / 2 < es.length := Nat.div_lt_self hlen (by norm_num)
    have hget : es[es.length / 2]? = some (es.get ⟨es.length / 2, hm⟩) := by
      rw [← List.get?_eq_getElem?]
      exact List.get?_eq_get hm
    rcases hkv : es.get ⟨es.length / 2, hm⟩ with ⟨sk, sv⟩
    rw [hkv] at hget
    have hsplit : into_split_iter es =
        some (sk, es.take (es.length / 2), es.drop (es.length / 2)) := by
      unfold into_split_iter
      rw [if_neg (Nat.not_lt.mpr h2), hget]
    refine ⟨sk, es.take (es.length / 2), es.drop (es.length / 2), hsplit, ?_, ?_, ?_, ?_, ?_⟩
    · unfold split_root_impl
      rw [hsplit]
      rfl
    · exact List.take_append_drop _ es
    · intro hnil
      rw [List.take_eq_nil_iff] at hnil
      rcases hnil with h0 | h0
      · omega
      · rw [h0] at h2; simp at h2
    · intro hnil
      rw [List.drop_eq_nil_iff] at hnil
      omega
    · rw [List.head?_drop, hget]
      rfl

theorem split_root_spec_w :
    ∃ sk l r,
      into_split_iter [((⟨[1], 1⟩ : Key), Value.Put [9]), (⟨[2], 1⟩, Value.Put [8])] =
        some (sk, l, r) ∧
      split_root_impl true 5 ⟨0, 3, ⟨0, 1, 0, .Data, .Leaf, 30⟩, none⟩
          [((⟨[1], 1⟩ : Key), Value.Put [9]), (⟨[2], 1⟩, Value.Put [8])] = .ok (some
        { leftId := 5
          rightId := 6
          leftEntries := l
          rightEntries := r
          newRootEntries := [([], Index.mk 5 0), (sk.raw, Index.mk 6 0)]
          newRootTier := .Inner
          newRootKind := .Data
          deallocated := [3] }) ∧
      l ++ r = [((⟨[1], 1⟩ : Key), Value.Put [9]), (⟨[2], 1⟩, Value.Put [8])] ∧
      l ≠ [] ∧ r ≠ [] ∧ r.head?.map Prod.fst = some sk :=
  split_root_spec.2 5 ⟨0, 3, ⟨0, 1, 0, .Data, .Leaf, 30⟩, none⟩
    [((⟨[1], 1⟩ : Key), Value.Put [9]), (⟨[2], 1⟩, Value.Put [8])] (by decide)

/-!  Supporting lemmas for the reachable-state invariant (C9). -/

theorem installAt_self (f : Nat → Option Hdr) (a : Nat) (h : Hdr) :
    installAt f a h a = some h := by
  simp [installAt]

theorem installAt_other (f : Nat → Option Hdr) (a : Nat) (h : Hdr) (x : Nat)
    (hx : x ≠ a) : installAt f a h x = f x := by
  simp [installAt, hx]

theorem inv_store_install (store : Nat → Option Hdr)
    (hP : ∀ a h, store a = some h → h.chainNext = 0 → h.chainLen = 1)
    (n : Nat) (d : Hdr) (hd : d.chainNext = 0 → d.chainLen = 1) :
    ∀ a h, installAt store n d a = some h → h.chainNext = 0 → h.chainLen = 1 := by
  intro a h ha
  by_cases hx : a = n
  · subst hx
    rw [installAt_self] at ha
    injection ha with hh
    subst hh
    exact hd
  · rw [installAt_other _ _ _ _ hx] at ha
    exact hP a h ha

theorem inv_init : Inv initState := by
  refine ⟨?_, ⟨baseHdr .Leaf, by decide, rfl⟩, ?_, by decide, by decide⟩
  · intro a h ha hnext
    by_cases h1 : a = 1
    · subst h1
      have hh : h = baseHdr .Leaf := by
        have : some h = some (baseHdr .Leaf) := by simpa [initState] using ha.symm
        injection this
      subst hh
      rfl
    · exact absurd ha (by simp [initState, h1])
  · intro a ha
    simp only [initState] at ha ⊢
    have h1 : a ≠ 1 := by omega
    simp [h1]

theorem step_inv {s s2 : TState} (hinv : Inv s) (hs : Step s s2) : Inv s2 := by
  obtain ⟨hP, ⟨hw, hw1, hw2⟩, hF, hRn, h0⟩ := hinv
  have hane : ∀ a h, s.store a = some h → a ≠ 0 := by
    intro a h hsa ha0
    rw [ha0, h0] at hsa
    exact Option.noConfusion hsa
  have hrne : s.root ≠ 0 := hane s.root hw hw1
  have hn1 : 1 ≤ s.n := by omega
  cases hs with
  | write_root h hsr =>
    have hhw : h = hw := by
      rw [hw1] at hsr
      injection hsr with hh
      exact hh.symm
    refine ⟨?_, ?_, ?_, by dsimp only; omega, ?_⟩
    · exact inv_store_install s.store hP s.n _ (fun hc => absurd hc hrne)
    · refine ⟨_, installAt_self _ _ _, ?_⟩
      simp [hhw, hw2]
    · intro a ha
      dsimp only at ha ⊢
      rw [installAt_other _ _ _ _ (by omega : a ≠ s.n)]
      exact hF a (by omega)
    · dsimp only
      rw [installAt_other _ _ _ _ (by omega : (0 : Nat) ≠ s.n)]
      exact h0
  | write_other a h hsa =>
    refine ⟨?_, ?_, ?_, by dsimp only; omega, ?_⟩
    · exact inv_store_install s.store hP s.n _ (fun hc => absurd hc (hane a h hsa))
    · refine ⟨hw, ?_, hw2⟩
      dsimp only
      rw [installAt_other _ _ _ _ (by omega : s.root ≠ s.n)]
      exact hw1
    · intro b hb
      dsimp only at hb ⊢
      rw [installAt_other _ _ _ _ (by omega : b ≠ s.n)]
      exact hF b (by omega)
    · dsimp only
      rw [installAt_other _ _ _ _ (by omega : (0 : Nat) ≠ s.n)]
      exact h0
  | split_nonroot a h hsa hk hc =>
    refine ⟨?_, ?_, ?_, by dsimp only; omega, ?_⟩
    · refine inv_store_install _ ?_ (s.n + 1) _ (fun hc2 => absurd hc2 (hane a h hsa))
      exact inv_store_install s.store hP s.n _ (fun _ => rfl)
    · refine ⟨hw, ?_, hw2⟩
      dsimp only
      rw [installAt_other _ _ _ _ (by omega : s.root ≠ s.n + 1),
        installAt_other _ _ _ _ (by omega : s.root ≠ s.n)]
      exact hw1
    · intro b hb
      dsimp only at hb ⊢
      rw [installAt_other _ _ _ _ (by omega : b ≠ s.n + 1),
        installAt_other _ _ _ _ (by omega : b ≠ s.n)]
      exact hF b (by omega)
    · dsimp only
      rw [installAt_other _ _ _ _ (by omega : (0 : Nat) ≠ s.n + 1),
        installAt_other _ _ _ _ (by omega : (0 : Nat) ≠ s.n)]
      exact h0
  | split_root h hsr hk hc =>
    refine ⟨?_, ?_, ?_, by dsimp only; omega, ?_⟩
    · refine inv_store_install _ ?_ (s.n + 2) _ (fun _ => rfl)
      refine inv_store_install _ ?_ (s.n + 1) _ (fun _ => rfl)
      exact inv_store_install s.store hP s.n _ (fun _ => rfl)
    · exact ⟨baseHdr .Inner, installAt_self _ _ _, rfl⟩
    · intro b hb
      dsimp only at hb ⊢
      rw [installAt_other _ _ _ _ (by omega : b ≠ s.n + 2),
        installAt_other _ _ _ _ (by omega : b ≠ s.n + 1),
        installAt_other _ _ _ _ (by omega : b ≠ s.n)]
      exact hF b (by omega)
    · dsimp only
      rw [installAt_other _ _ _ _ (by omega : (0 : Nat) ≠ s.n + 2),
        installAt_other _ _ _ _ (by omega : (0 : Nat) ≠ s.n + 1),
        installAt_other _ _ _ _ (by omega : (0 : Nat) ≠ s.n)]
      exact h0
  | consolidate_root h hb b hsr hsb =>
    have hhw : h = hw := by
      rw [hw1] at hsr
      injection hsr with hh
      exact hh.symm
    refine ⟨?_, ?_, ?_, by dsimp only; omega, ?_⟩
    · exact inv_store_install s.store hP s.n _ (hP b hb hsb)
    · refine ⟨_, installAt_self _ _ _, ?_⟩
      simp [hhw, hw2]
    · intro a ha
      dsimp only at ha ⊢
      rw [installAt_other _ _ _ _ (by omega : a ≠ s.n)]
      exact hF a (by omega)
    · dsimp only
      rw [installAt_other _ _ _ _ (by omega : (0 : Nat) ≠ s.n)]
      exact h0
  | consolidate_other a b h hb hsa hsb =>
    refine ⟨?_, ?_, ?_, by dsimp only; omega, ?_⟩
    · exact inv_store_install s.store hP s.n _ (hP b hb hsb)
    · refine ⟨hw, ?_, hw2⟩
      dsimp only
      rw [installAt_other _ _ _ _ (by omega : s.root ≠ s.n)]
      exact hw1
    · intro c hcc
      dsimp only at hcc ⊢
      rw [installAt_other _ _ _ _ (by omega : c ≠ s.n)]
      exact hF c (by omega)
    · dsimp only
      rw [installAt_other _ _ _ _ (by omega : (0 : Nat) ≠ s.n)]
      exact h0
  | reconcile_root h hsr =>
    have hhw : h = hw := by
      rw [hw1] at hsr
      injection hsr with hh
      exact hh.symm
    refine ⟨?_, ?_, ?_, by dsimp only; omega, ?_⟩
    · exact inv_store_install s.store hP s.n _ (fun hc => absurd hc hrne)
    · refine ⟨_, installAt_self _ _ _, ?_⟩
      simp [hhw, hw2]
    · intro a ha
      dsimp only at ha ⊢
      rw [installAt_other _ _ _ _ (by omega : a ≠ s.n)]
      exact hF a (by omega)
    · dsimp only
      rw [installAt_other _ _ _ _ (by omega : (0 : Nat) ≠ s.n)]
      exact h0
  | reconcile_other a h hsa =>
    refine ⟨?_, ?_, ?_, by dsimp only; omega, ?_⟩
    · exact inv_store_install s.store hP s.n _ (fun hc => absurd hc (hane a h hsa))
    · refine ⟨hw, ?_, hw2⟩
      dsimp only
      rw [installAt_other _ _ _ _ (by omega : s.root ≠ s.n)]
      exact hw1
    · intro b hbb
      dsimp only at hbb ⊢
      rw [installAt_other _ _ _ _ (by omega : b ≠ s.n)]
      exact hF b (by omega)
    · dsimp only
      rw [installAt_other _ _ _ _ (by omega : (0 : Nat) ≠ s.n)]
      exact h0

theorem inv_reachable (s : TState) (h : Reachable s) : Inv s := by
  induction h with
  | init => exact inv_init
  | step hr hs ih => exact step_inv ih hs

/-- C9: in every state reachable from `init`, the root head has epoch 0,
and whenever the root head is a base page (`chain_next == 0`, the guard
under which `split_page` dispatches to `split_root_impl`) its chain length
is 1 — so the assertions at the start of `split_root_impl` cannot fail. -/
theorem root_head_invariant (s : TState) (hs : Reachable s) :
    ∃ h, s.store s.root = some h ∧ h.epoch = 0 ∧
      (h.chainNext = 0 → h.chainLen = 1) := by
  obtain ⟨hP, ⟨h, h1, h2⟩, -, -, -⟩ := inv_reachable s hs
  exact ⟨h, h1, h2, hP _ _ h1⟩

theorem root_head_invariant_w :
    ∃ h, initState.store initState.root = some h ∧ h.epoch = 0 ∧
      (h.chainNext = 0 → h.chainLen = 1) :=
  root_head_invariant initState Reachable.init

/-- C10: a fresh `TreeIter` has no parent iterator and remembers the empty
key, so its first `next_page` call seeks from the empty key; the descent of
that seek picks the first — leftmost — child on an inner data page whose
first entry starts at the empty key (as every inner page built by a root
split does); and `next_page` answers `done` only on a state whose
remembered key is already `None`. -/
theorem tree_iter_first_seek :
    (TreeIter_new.innerIter = none ∧ TreeIter_new.innerNext = some []) ∧
    (∀ epochOf seekState,
       (next_page epochOf seekState TreeIter_new).1 = .seekFrom []) ∧
    (∀ epochOf seekState (s : IterState),
       (next_page epochOf seekState s).1 = .done → s.innerNext = none) ∧
    (∀ (idx0 : Index) (rest : List (Raw × Index)) (tail : List InnerPage),
       idx0 ≠ NULL_INDEX →
       find_child [] (⟨.Data, ([], idx0) :: rest⟩ :: tail) =
         some (idx0, ⟨[], rest.head?.map Prod.fst⟩)) := by
  refine ⟨⟨rfl, rfl⟩, fun _ _ => rfl, ?_, ?_⟩
  · intro epochOf seekState s hdone
    obtain ⟨ii, inx⟩ := s
    cases ii with
    | none =>
      cases inx with
      | none => rfl
      | some nx => simp [next_page] at hdone
    | some l =>
      cases l with
      | nil =>
        cases inx with
        | none => rfl
        | some nx => simp [next_page] at hdone
      | cons e es =>
        obtain ⟨st, idx⟩ := e
        by_cases he : epochOf idx.id = idx.epoch
        · simp [next_page, he] at hdone
        · simp [next_page, he] at hdone
  · intro idx0 rest tail hnn
    have hp : find_child_page [] ⟨.Data, ([], idx0) :: rest⟩ =
        some (idx0, ⟨[], rest.head?.map Prod.fst⟩) := by
      unfold find_child_page rankRaw lowerBoundRaw
      simp [cmpRaw, hnn, List.head?_eq_getElem?]
    unfold find_child
    rw [hp]

theorem tree_iter_first_seek_w :
    find_child [] [⟨.Data, [([], ⟨3, 0⟩)]⟩] = some (⟨3, 0⟩, ⟨[], none⟩) :=
  tree_iter_first_seek.2.2.2 ⟨3, 0⟩ [] [] (by decide)

end Photondb
